import Mathlib

/-!
Verification of the workspace-edit application engine of
`internal/tools/rename.go` (typescript-mcp).

File content and lines are modelled as lists of Unicode scalar values
(Lean `Char`).  The Go code operates on the UTF-8 bytes of such
content; byte lengths are recovered with `Char.utf8Size`, so a byte
offset in the Go code corresponds here to a byte count over a prefix
of the scalar-value list.  All byte offsets the engine computes land
on scalar-value boundaries (proved below), so this representation is
faithful for well-formed UTF-8 content, which is the setting of the
specification.
-/

namespace RenameEngine

/-- Number of UTF-16 code units contributed by one scalar value:
values up to U+FFFF contribute 1 unit, supplementary characters 2
(the `r <= 0xFFFF` branch of `utf16ColToByteOffset`, rename.go). -/
def utf16Units (c : Char) : Nat := if c.toNat ≤ 0xFFFF then 1 else 2

/-- Byte length of content: Go `len` of the UTF-8 string. -/
def utf8Len (l : List Char) : Nat := (l.map Char.utf8Size).sum

/-- Total UTF-16 code-unit length of a line. -/
def utf16Len (l : List Char) : Nat := (l.map utf16Units).sum

/-- `utf16ColToByteOffset` (rename.go, lines 263-280): walk the line
one scalar value at a time, adding its UTF-8 size to the byte offset,
and stop as soon as the running UTF-16 count reaches `utf16Col`.
Here the remaining column count is carried down the recursion, and
truncated `Nat` subtraction plays the role of the Go comparison
`utf16Count >= utf16Col`.  When the line runs out first, the
accumulated offset is the full byte length of the line (the clamp). -/
def utf16ColToByteOffset (line : List Char) (utf16Col : Nat) : Nat :=
  match line with
  | [] => 0
  | c :: rest =>
    if utf16Col = 0 then 0
    else c.utf8Size + utf16ColToByteOffset rest (utf16Col - utf16Units c)

/-- Modelled from the spec: re-deriving the UTF-16 unit count of the
byte prefix of a given byte length (the second leg of the offset
round trip of spec §8; the repository has no such inverse function).
Scalar values are consumed while they fit inside the byte budget. -/
def utf16OfBytes (l : List Char) (bytes : Nat) : Nat :=
  match l with
  | [] => 0
  | c :: rest =>
    if c.utf8Size ≤ bytes then utf16Units c + utf16OfBytes rest (bytes - c.utf8Size)
    else 0

@[simp] lemma utf16Len_nil : utf16Len [] = 0 := rfl

@[simp] lemma utf16Len_cons (c : Char) (l : List Char) :
    utf16Len (c :: l) = utf16Units c + utf16Len l := by
  simp [utf16Len]

@[simp] lemma utf8Len_nil : utf8Len [] = 0 := rfl

@[simp] lemma utf8Len_cons (c : Char) (l : List Char) :
    utf8Len (c :: l) = c.utf8Size + utf8Len l := by
  simp [utf8Len]

lemma utf16Units_pos (c : Char) : 1 ≤ utf16Units c := by
  unfold utf16Units; split <;> simp

lemma utf8Size_pos (c : Char) : 1 ≤ c.utf8Size := by
  unfold Char.utf8Size
  dsimp only
  split
  · exact Nat.le_refl 1
  · split
    · omega
    · split <;> omega

/-- Converting the UTF-16 length of a scalar-value prefix gives
exactly the byte length of that prefix. -/
lemma utf16ColToByteOffset_take (line : List Char) :
    ∀ n : Nat, utf16ColToByteOffset line (utf16Len (line.take n)) =
      utf8Len (line.take n) := by
  induction line with
  | nil => intro n; simp [utf16ColToByteOffset]
  | cons c rest ih =>
    intro n
    cases n with
    | zero => simp [utf16ColToByteOffset]
    | succ m =>
      simp only [List.take_succ_cons, utf16Len_cons, utf8Len_cons]
      unfold utf16ColToByteOffset
      have h1 := utf16Units_pos c
      rw [if_neg (by omega)]
      rw [Nat.add_sub_cancel_left]
      rw [ih m]

/-- Counting UTF-16 units of the byte prefix that is exactly a
scalar-value prefix recovers that prefix's UTF-16 length. -/
lemma utf16OfBytes_take (line : List Char) :
    ∀ n : Nat, utf16OfBytes line (utf8Len (line.take n)) =
      utf16Len (line.take n) := by
  induction line with
  | nil => intro n; simp [utf16OfBytes]
  | cons c rest ih =>
    intro n
    cases n with
    | zero =>
      have h1 := utf8Size_pos c
      simp only [List.take_zero, utf8Len_nil, utf16Len_nil]
      unfold utf16OfBytes
      rw [if_neg (by omega)]
    | succ m =>
      simp only [List.take_succ_cons, utf16Len_cons, utf8Len_cons]
      unfold utf16OfBytes
      rw [if_pos (by omega)]
      rw [Nat.add_sub_cancel_left]
      rw [ih m]

/-- C5 (counterexample): for the single-character line `"👀"`
(U+1F440, 2 UTF-16 units, 4 UTF-8 bytes) and the in-range count
`c = 1`, the position mapper returns the byte offset 4 after the
whole character, and re-deriving the UTF-16 count of that byte
prefix yields 2, not 1: the round trip fails when `c` falls between
the two code units of a surrogate pair. -/
theorem c5_round_trip_counterexample :
    utf16Len [Char.ofNat 128064] = 2 ∧
    1 ≤ utf16Len [Char.ofNat 128064] ∧
    utf16ColToByteOffset [Char.ofNat 128064] 1 = 4 ∧
    utf16OfBytes [Char.ofNat 128064]
      (utf16ColToByteOffset [Char.ofNat 128064] 1) = 2 := by
  refine ⟨by decide, by decide, by decide, by decide⟩

/-- C5 (amended): for every line and every UTF-16 count `c` that is
the UTF-16 length of a scalar-value prefix of the line (so `c` does
not fall between the two code units of a surrogate pair), converting
`c` to a byte offset and re-deriving the UTF-16 unit count of the
byte prefix of that length recovers `c`; this covers ASCII, 2-byte,
3-byte and 4-byte scalar values. -/
theorem c5_round_trip (line : List Char) (n : Nat) :
    utf16OfBytes line (utf16ColToByteOffset line (utf16Len (line.take n))) =
      utf16Len (line.take n) := by
  rw [utf16ColToByteOffset_take, utf16OfBytes_take]

/-- C7: for every line and every UTF-16 count strictly greater than
the line's total UTF-16 length, the position mapper returns the full
byte length of the line (a clamp, not an error); in particular it
returns 0 for an empty line and for count 0. -/
theorem c7_clamp :
    (∀ (line : List Char) (c : Nat), utf16Len line < c →
      utf16ColToByteOffset line c = utf8Len line) ∧
    (∀ c : Nat, utf16ColToByteOffset [] c = 0) ∧
    (∀ line : List Char, utf16ColToByteOffset line 0 = 0) := by
  refine ⟨?_, fun c => rfl, ?_⟩
  · intro line
    induction line with
    | nil => intro c _; rfl
    | cons ch rest ih =>
      intro c hc
      have h1 := utf16Units_pos ch
      simp only [utf16Len_cons] at hc
      unfold utf16ColToByteOffset
      rw [if_neg (by omega)]
      rw [ih (c - utf16Units ch) (by omega)]
      simp
  · intro line
    cases line with
    | nil => rfl
    | cons c rest => simp [utf16ColToByteOffset]

/-- C7 witness: a concrete clamp, at the line `"a"` and count 2. -/
theorem c7_clamp_witness :
    utf16Len [Char.ofNat 97] < 2 ∧
    utf16ColToByteOffset [Char.ofNat 97] 2 = utf8Len [Char.ofNat 97] :=
  ⟨by decide, c7_clamp.1 [Char.ofNat 97] 2 (by decide)⟩

/-- C10: for every line and every UTF-16 count, the byte offset
returned by the position mapper is at most the byte length of the
line, and it is the byte length of some scalar-value prefix of the
line, hence always a UTF-8 character boundary: a splice never cuts
through a multi-byte encoding, and a count falling inside a
surrogate pair resolves to the boundary after the whole character. -/
theorem c10_offset_on_boundary (line : List Char) (col : Nat) :
    utf16ColToByteOffset line col ≤ utf8Len line ∧
    ∃ n, n ≤ line.length ∧
      utf16ColToByteOffset line col = utf8Len (line.take n) := by
  induction line generalizing col with
  | nil => exact ⟨Nat.le_refl 0, 0, Nat.le_refl 0, rfl⟩
  | cons c rest ih =>
    by_cases h0 : col = 0
    · subst h0
      refine ⟨Nat.zero_le _, 0, Nat.zero_le _, ?_⟩
      simp [utf16ColToByteOffset]
    · obtain ⟨hle, n, hn, heq⟩ := ih (col - utf16Units c)
      refine ⟨?_, n + 1, by simpa using hn, ?_⟩
      · unfold utf16ColToByteOffset
        rw [if_neg h0]
        simp only [utf8Len_cons]
        omega
      · unfold utf16ColToByteOffset
        rw [if_neg h0]
        simp only [List.take_succ_cons, utf8Len_cons, heq]

/-- LSP-style position: 0-based line, 0-based UTF-16 character. -/
structure Position where
  line : Nat
  character : Nat
deriving DecidableEq

/-- protocol.Range: start and end positions (`End` in Go). -/
structure TextRange where
  start : Position
  endPos : Position
deriving DecidableEq

/-- protocol.TextEdit: replace the text spanned by `range` with
`newText`. -/
structure TextEdit where
  range : TextRange
  newText : List Char
deriving DecidableEq

/-- splitLines (rename.go 234-250): split content into lines after
each newline, each line keeping its trailing newline; empty content
yields one empty line. -/
def splitLines : List Char → List (List Char)
  | [] => [[]]
  | c :: rest =>
    if c = '\n' then ['\n'] :: splitLines rest
    else
      match splitLines rest with
      | [] => [[c]]
      | l :: ls => (c :: l) :: ls

/-- lineOffset (rename.go 253-259): byte offset of the start of a
line, the sum of the byte lengths of all preceding lines (the Go
loop also stops at len(lines), mirrored by List.take). -/
def lineOffset (lines : List (List Char)) (line : Nat) : Nat :=
  ((lines.take line).map utf8Len).sum

/-- Byte slice content[:n]: scalar values are kept while they fit in
the byte budget.  Agrees with the Go byte slice whenever n is a
scalar-value boundary, which holds for every offset the engine
computes (see c10_offset_on_boundary). -/
def takeBytes : List Char → Nat → List Char
  | [], _ => []
  | c :: rest, n => if c.utf8Size ≤ n then c :: takeBytes rest (n - c.utf8Size) else []

/-- Byte slice content[n:], under the same boundary convention as
takeBytes. -/
def dropBytes : List Char → Nat → List Char
  | [], _ => []
  | c :: rest, n => if c.utf8Size ≤ n then dropBytes rest (n - c.utf8Size) else c :: rest

/-- Failures of applyFileEdits; the payloads are the numbers
interpolated into the two Go error messages (rename.go 205, 216). -/
inductive ApplyError where
  | outOfRange (startLine endLine numLines : Nat)
  | invalidOffset (startByte endByte length : Nat)
deriving DecidableEq

/-- Absolute byte offset of an edit's start position within content
(rename.go 208, 212). -/
def editAbsStart (content : List Char) (e : TextEdit) : Nat :=
  lineOffset (splitLines content) e.range.start.line +
    utf16ColToByteOffset ((splitLines content).getD e.range.start.line [])
      e.range.start.character

/-- Absolute byte offset of an edit's end position within content
(rename.go 209, 213). -/
def editAbsEnd (content : List Char) (e : TextEdit) : Nat :=
  lineOffset (splitLines content) e.range.endPos.line +
    utf16ColToByteOffset ((splitLines content).getD e.range.endPos.line [])
      e.range.endPos.character

/-- One iteration of the edit loop of applyFileEdits (rename.go
200-227): bounds-check the lines, resolve the byte span, check it,
and splice newText over it. -/
def applyEditStep (content : List Char) (e : TextEdit) :
    Except ApplyError (List Char) :=
  let lines := splitLines content
  if e.range.start.line ≥ lines.length ∨ e.range.endPos.line ≥ lines.length then
    .error (.outOfRange e.range.start.line e.range.endPos.line lines.length)
  else
    let absStart := editAbsStart content e
    let absEnd := editAbsEnd content e
    if absStart > utf8Len content ∨ absEnd > utf8Len content ∨ absStart > absEnd then
      .error (.invalidOffset absStart absEnd (utf8Len content))
    else
      .ok (takeBytes content absStart ++ e.newText ++ dropBytes content absEnd)

/-- Non-strict lexicographic order on positions. -/
def posLe (p q : Position) : Prop :=
  p.line < q.line ∨ (p.line = q.line ∧ p.character ≤ q.character)

/-- Strict lexicographic order on positions. -/
def posLt (p q : Position) : Prop :=
  p.line < q.line ∨ (p.line = q.line ∧ p.character < q.character)

instance (p q : Position) : Decidable (posLe p q) := by unfold posLe; infer_instance

instance (p q : Position) : Decidable (posLt p q) := by unfold posLt; infer_instance

/-- The order imposed by the sort.Slice comparator of applyFileEdits
(rename.go 191-196): `a` sorts no later than `b` when `a`'s start
position is lexicographically at least `b`'s (descending order, by
line then character). -/
def editGE (a b : TextEdit) : Prop := posLe b.range.start a.range.start

instance (a b : TextEdit) : Decidable (editGE a b) := by unfold editGE; infer_instance

instance : IsTotal TextEdit editGE :=
  ⟨by
    intro a b
    unfold editGE posLe
    omega⟩

instance : IsTrans TextEdit editGE :=
  ⟨by
    intro a b c hab hbc
    unfold editGE posLe at *
    omega⟩

/-- The sort performed by applyFileEdits (rename.go 188-196).  Go's
sort.Slice is an unspecified comparison sort; on edit lists whose
start positions are pairwise distinct every comparison sort for this
comparator produces the same output, which insertion sort realizes.
For tied start positions Go's order is unspecified. -/
def sortEdits (edits : List TextEdit) : List TextEdit :=
  List.insertionSort editGE edits

/-- The edit loop of applyFileEdits (rename.go 200-227): edits are
applied sequentially, the lines being recomputed from the current
content at every step; the first failure aborts. -/
def applyEditsLoop : List Char → List TextEdit → Except ApplyError (List Char)
  | content, [] => .ok content
  | content, e :: rest =>
    match applyEditStep content e with
    | .ok c => applyEditsLoop c rest
    | .error err => .error err

/-- applyFileEdits (rename.go 187-230): sort descending by start
position, then splice sequentially. -/
def applyFileEdits (content : List Char) (edits : List TextEdit) :
    Except ApplyError (List Char) :=
  applyEditsLoop content (sortEdits edits)

/-- Edit `a` lies strictly before edit `b` in document order: `a`
ends no later than `b` starts, and their start positions differ. -/
def sepBefore (a b : TextEdit) : Prop :=
  posLe a.range.endPos b.range.start ∧ posLt a.range.start b.range.start

instance (a b : TextEdit) : Decidable (sepBefore a b) := by
  unfold sepBefore; infer_instance

/-- A pairwise non-overlapping edit set: any two edits occupy
disjoint spans, one strictly before the other (per spec §4.3, equal
start positions do not occur in such a set). -/
def NonOverlapping (l : List TextEdit) : Prop :=
  l.Pairwise fun a b => sepBefore a b ∨ sepBefore b a

instance (l : List TextEdit) : Decidable (NonOverlapping l) := by
  unfold NonOverlapping; infer_instance

lemma posLe_antisymm {p q : Position} (h1 : posLe p q) (h2 : posLe q p) : p = q := by
  cases p with
  | mk pl pc =>
    cases q with
    | mk ql qc =>
      unfold posLe at h1 h2
      simp only at h1 h2
      have : pl = ql ∧ pc = qc := by omega
      rw [this.1, this.2]

lemma posLt_ne {p q : Position} (h : posLt p q) : p ≠ q := by
  intro heq
  subst heq
  unfold posLt at h
  omega

lemma nonOverlapping_starts_ne {l : List TextEdit} (h : NonOverlapping l) :
    l.Pairwise fun a b => a.range.start ≠ b.range.start := by
  refine h.imp ?_
  intro a b hab
  rcases hab with h1 | h1
  · exact posLt_ne h1.2
  · exact (posLt_ne h1.2).symm

/-- Two sorted permutations of each other whose start positions are
pairwise distinct are equal. -/
lemma sorted_perm_unique :
    ∀ l1 l2 : List TextEdit, l1.Perm l2 → l1.Sorted editGE → l2.Sorted editGE →
      (l1.Pairwise fun a b => a.range.start ≠ b.range.start) → l1 = l2 := by
  intro l1
  induction l1 with
  | nil =>
    intro l2 hp _ _ _
    exact (hp.nil_eq).symm ▸ rfl
  | cons a t1 ih =>
    intro l2 hp hs1 hs2 hne
    cases l2 with
    | nil => exact absurd hp.symm.nil_eq (by simp)
    | cons b t2 =>
      have hab : a = b := by
        by_contra hne2
        have hb1 : b ∈ a :: t1 := hp.mem_iff.mpr (List.mem_cons_self b t2)
        have ha2 : a ∈ b :: t2 := hp.mem_iff.mp (List.mem_cons_self a t1)
        have hbt1 : b ∈ t1 := by
          cases hb1 with
          | head => exact absurd rfl hne2
          | tail _ h => exact h
        have hat2 : a ∈ t2 := by
          cases ha2 with
          | head => exact absurd rfl hne2
          | tail _ h => exact h
        have h1 : editGE a b := List.rel_of_sorted_cons hs1 b hbt1
        have h2 : editGE b a := List.rel_of_sorted_cons hs2 a hat2
        have : b.range.start = a.range.start := posLe_antisymm h1 h2
        have hne3 : a.range.start ≠ b.range.start :=
          (List.pairwise_cons.mp hne).1 b hbt1
        exact hne3 this.symm
      subst hab
      have ht : t1.Perm t2 := hp.cons_inv
      rw [ih t2 ht hs1.of_cons hs2.of_cons (List.pairwise_cons.mp hne).2]

/-- C4: for every file content and every pairwise non-overlapping
edit set, applyFileEdits (sort by start position descending, then
sequential splicing) produces the same output for every permutation
of the input edit list. -/
theorem c4_order_independence (content : List Char) (l1 l2 : List TextEdit)
    (hperm : l1.Perm l2) (hsep : NonOverlapping l1) :
    applyFileEdits content l1 = applyFileEdits content l2 := by
  unfold applyFileEdits
  have hsort : sortEdits l1 = sortEdits l2 := by
    unfold sortEdits
    have hp : (List.insertionSort editGE l1).Perm (List.insertionSort editGE l2) :=
      ((List.perm_insertionSort editGE l1).trans hperm).trans
        (List.perm_insertionSort editGE l2).symm
    have hne1 := nonOverlapping_starts_ne hsep
    have hsym : ∀ {x y : TextEdit},
        x.range.start ≠ y.range.start → y.range.start ≠ x.range.start :=
      fun h => h.symm
    have hne2 : (List.insertionSort editGE l1).Pairwise
        fun a b => a.range.start ≠ b.range.start :=
      (List.Perm.pairwise_iff hsym (List.perm_insertionSort editGE l1)).mpr hne1
    exact sorted_perm_unique _ _ hp
      (List.sorted_insertionSort editGE l1)
      (List.sorted_insertionSort editGE l2) hne2
  rw [hsort]

/-- C4 witness: two adjacent single-line replacements on the content
"ab", supplied in both orders, give identical output. -/
theorem c4_order_independence_witness :
    NonOverlapping
      [⟨⟨⟨0, 0⟩, ⟨0, 1⟩⟩, [Char.ofNat 88]⟩, ⟨⟨⟨0, 1⟩, ⟨0, 2⟩⟩, [Char.ofNat 89]⟩] ∧
    List.Perm
      [⟨⟨⟨0, 0⟩, ⟨0, 1⟩⟩, [Char.ofNat 88]⟩, ⟨⟨⟨0, 1⟩, ⟨0, 2⟩⟩, [Char.ofNat 89]⟩]
      [(⟨⟨⟨0, 1⟩, ⟨0, 2⟩⟩, [Char.ofNat 89]⟩ : TextEdit), ⟨⟨⟨0, 0⟩, ⟨0, 1⟩⟩, [Char.ofNat 88]⟩] ∧
    applyFileEdits [Char.ofNat 97, Char.ofNat 98]
      [⟨⟨⟨0, 0⟩, ⟨0, 1⟩⟩, [Char.ofNat 88]⟩, ⟨⟨⟨0, 1⟩, ⟨0, 2⟩⟩, [Char.ofNat 89]⟩] =
    applyFileEdits [Char.ofNat 97, Char.ofNat 98]
      [⟨⟨⟨0, 1⟩, ⟨0, 2⟩⟩, [Char.ofNat 89]⟩, ⟨⟨⟨0, 0⟩, ⟨0, 1⟩⟩, [Char.ofNat 88]⟩] :=
  ⟨by decide, by decide,
    c4_order_independence [Char.ofNat 97, Char.ofNat 98] _ _ (by decide) (by decide)⟩

/-- C6: the edit-application loop processes the sorted edits
sequentially against the current (already partially spliced) content;
one step fails with an out-of-range error exactly when the edit's
start line or end line is at least the number of lines of the
current content, fails with an invalid-offset error exactly when the
lines are in range but the computed absolute byte span violates
start ≤ end ≤ length of the current content, and otherwise returns
the spliced content. -/
theorem c6_error_conditions :
    (∀ (content : List Char) (edits : List TextEdit),
      applyFileEdits content edits = applyEditsLoop content (sortEdits edits)) ∧
    (∀ content : List Char, applyEditsLoop content [] = .ok content) ∧
    (∀ (content : List Char) (e : TextEdit) (rest : List TextEdit),
      applyEditsLoop content (e :: rest) =
        match applyEditStep content e with
        | .ok c => applyEditsLoop c rest
        | .error err => .error err) ∧
    (∀ (content : List Char) (e : TextEdit),
      applyEditStep content e =
        if e.range.start.line ≥ (splitLines content).length ∨
            e.range.endPos.line ≥ (splitLines content).length then
          .error (.outOfRange e.range.start.line e.range.endPos.line
            (splitLines content).length)
        else if ¬(editAbsStart content e ≤ editAbsEnd content e ∧
            editAbsEnd content e ≤ utf8Len content) then
          .error (.invalidOffset (editAbsStart content e) (editAbsEnd content e)
            (utf8Len content))
        else
          .ok (takeBytes content (editAbsStart content e) ++ e.newText ++
            dropBytes content (editAbsEnd content e))) := by
  refine ⟨fun _ _ => rfl, fun _ => rfl, fun _ _ _ => rfl, ?_⟩
  intro content e
  unfold applyEditStep
  by_cases h1 : e.range.start.line ≥ (splitLines content).length ∨
      e.range.endPos.line ≥ (splitLines content).length
  · rw [if_pos h1, if_pos h1]
  · rw [if_neg h1, if_neg h1]
    by_cases h2 : editAbsStart content e ≤ editAbsEnd content e ∧
        editAbsEnd content e ≤ utf8Len content
    · rw [if_neg (by omega), if_neg (by simpa using h2)]
    · rw [if_pos (by omega), if_pos (by simpa using h2)]

/-- A filesystem: file path to byte content, `none` when the file
cannot be read. -/
def FS := String → Option (List Char)

/-- Overwrite one file's content. -/
def fsWrite (fs : FS) (p : String) (c : List Char) : FS :=
  fun q => if q = p then some c else fs q

/-- protocol.WorkspaceEdit, its two representations: `changes` is the
Changes map and `documentChanges` the DocumentChanges list, each
entry a document URI with its edits.  The URI-to-path conversion
(docsync.URIToFile) is modelled as the identity, the engine treating
the result as an opaque string. -/
structure WorkspaceEdit where
  changes : List (String × List TextEdit)
  documentChanges : List (String × List TextEdit)

/-- One step of the normalization loops: `merged[uri] =
append(merged[uri], edits...)` (rename.go 108, 112).  The value is
appended to the first entry with this key; a missing key is
materialized even when the appended list is empty, exactly as the Go
map assignment does. -/
def insertAppend (m : List (String × List TextEdit)) (k : String)
    (v : List TextEdit) : List (String × List TextEdit) :=
  match m with
  | [] => [(k, v)]
  | (k2, v2) :: rest =>
    if k2 = k then (k2, v2 ++ v) :: rest else (k2, v2) :: insertAppend rest k v

/-- The normalization of applyWorkspaceEdit (rename.go 106-113):
merge both representations into one edit list per file, entries for
the same file concatenated, Changes first then DocumentChanges.  A Go
map has no intrinsic order; the association list records insertion
order, and the downstream iteration order is a separate parameter of
applyWorkspaceEdit. -/
def mergeEdits (we : WorkspaceEdit) : List (String × List TextEdit) :=
  (we.changes ++ we.documentChanges).foldl (fun m kv => insertAppend m kv.1 kv.2) []

/-- All edits recorded for key `k`, in order. -/
def assocVal (m : List (String × List TextEdit)) (k : String) : List TextEdit :=
  ((m.filter fun kv => kv.1 == k).map fun kv => kv.2).flatten

/-- Terminal errors of applyWorkspaceEdit: "reading %s" (rename.go
128), "applying edits to %s" (132), "writing %s" (150).  The Go code
has no variant reporting rollback failures. -/
inductive TxError where
  | readFailure (path : String)
  | applyFailure (path : String) (e : ApplyError)
  | writeFailure (path : String)
deriving DecidableEq

/-- The fileWork record of applyWorkspaceEdit (rename.go 116-121). -/
structure FileWork where
  path : String
  original : List Char
  updated : List Char
  edits : List TextEdit
deriving DecidableEq

/-- The read-and-compute loop of applyWorkspaceEdit (rename.go
124-140), iterating the merged map in the given order: read each
file, compute its updated content, record a fileWork entry; the
first failure aborts, before any write has happened. -/
def buildWork (fs : FS) : List (String × List TextEdit) → Except TxError (List FileWork)
  | [] => .ok []
  | (path, edits) :: rest =>
    match fs path with
    | none => .error (.readFailure path)
    | some original =>
      match applyFileEdits original edits with
      | .error e => .error (.applyFailure path e)
      | .ok updated =>
        match buildWork fs rest with
        | .error err => .error err
        | .ok work => .ok (⟨path, original, updated, edits⟩ :: work)

/-- The rollback loop (rename.go 147-149): rewrite every
previously-written file with its captured original content.  A
failed rollback write is discarded, as in Go (`_ = os.WriteFile`),
and modelled as leaving the file unchanged. -/
def rollbackAll (writeOk : String → List Char → Bool) : FS → List FileWork → FS
  | fs, [] => fs
  | fs, w :: rest =>
    rollbackAll writeOk
      (if writeOk w.path w.original then fsWrite fs w.path w.original else fs) rest

/-- The write loop (rename.go 143-153).  `writeOk` models whether an
os.WriteFile call succeeds for a given path and content; a failed
write leaves the file unchanged.  Returns the filesystem after all
writes (after rollback, when a write failed), the files successfully
written in write order, and the failing path, if any. -/
def writePhase (writeOk : String → List Char → Bool) :
    FS → List FileWork → List FileWork → FS × List FileWork × Option String
  | fs, written, [] => (fs, written, none)
  | fs, written, w :: rest =>
    if writeOk w.path w.updated then
      writePhase writeOk (fsWrite fs w.path w.updated) (written ++ [w]) rest
    else
      (rollbackAll writeOk fs written, written, some w.path)

/-- applyWorkspaceEdit (rename.go 103-168) over an explicit
filesystem.  `plan` is the iteration order of the merged map: Go
randomizes map iteration, so one run of the Go function corresponds
to one permutation of mergeEdits.  Returns the final filesystem, the
paths successfully written in write order, and either the terminal
error or the per-file edit counts of the result (the preview
strings, on which no claim depends, are not modelled). -/
def applyWorkspaceEdit (writeOk : String → List Char → Bool) (fs : FS)
    (plan : List (String × List TextEdit)) :
    FS × List String × Except TxError (List (String × Nat)) :=
  match buildWork fs plan with
  | .error e => (fs, [], .error e)
  | .ok work =>
    match writePhase writeOk fs [] work with
    | (fs2, written, none) =>
      (fs2, written.map FileWork.path, .ok (work.map fun w => (w.path, w.edits.length)))
    | (fs2, written, some p) =>
      (fs2, written.map FileWork.path, .error (.writeFailure p))

/-- The content written after a sequence of successful writes. -/
def fsAfterWrites (fs : FS) (ws : List FileWork) : FS :=
  ws.foldl (fun f w => fsWrite f w.path w.updated) fs

lemma fsWrite_same (fs : FS) (p : String) (c : List Char) :
    fsWrite fs p c p = some c := by
  unfold fsWrite; simp

lemma fsWrite_other (fs : FS) (p q : String) (c : List Char) (h : q ≠ p) :
    fsWrite fs p c q = fs q := by
  unfold fsWrite; simp [h]

lemma buildWork_paths (fs : FS) :
    ∀ (plan : List (String × List TextEdit)) (work : List FileWork),
      buildWork fs plan = .ok work →
      work.map FileWork.path = plan.map Prod.fst := by
  intro plan
  induction plan with
  | nil =>
    intro work h
    simp only [buildWork] at h
    cases h
    rfl
  | cons kv rest ih =>
    intro work h
    obtain ⟨path, edits⟩ := kv
    simp only [buildWork] at h
    cases hr : fs path with
    | none => simp only [hr] at h; exact Except.noConfusion h
    | some original =>
      simp only [hr] at h
      cases ha : applyFileEdits original edits with
      | error e => simp only [ha] at h; exact Except.noConfusion h
      | ok updated =>
        simp only [ha] at h
        cases hb : buildWork fs rest with
        | error err => simp only [hb] at h; exact Except.noConfusion h
        | ok work2 =>
          simp only [hb] at h
          cases h
          simp [ih work2 hb]

lemma buildWork_reads (fs : FS) :
    ∀ (plan : List (String × List TextEdit)) (work : List FileWork),
      buildWork fs plan = .ok work →
      ∀ w ∈ work, fs w.path = some w.original ∧
        applyFileEdits w.original w.edits = .ok w.updated := by
  intro plan
  induction plan with
  | nil =>
    intro work h
    simp only [buildWork] at h
    cases h
    intro w hw
    cases hw
  | cons kv rest ih =>
    intro work h
    obtain ⟨path, edits⟩ := kv
    simp only [buildWork] at h
    cases hr : fs path with
    | none => simp only [hr] at h; exact Except.noConfusion h
    | some original =>
      simp only [hr] at h
      cases ha : applyFileEdits original edits with
      | error e => simp only [ha] at h; exact Except.noConfusion h
      | ok updated =>
        simp only [ha] at h
        cases hb : buildWork fs rest with
        | error err => simp only [hb] at h; exact Except.noConfusion h
        | ok work2 =>
          simp only [hb] at h
          cases h
          intro w hw
          cases hw with
          | head => exact ⟨hr, ha⟩
          | tail _ hw2 => exact ih work2 hb w hw2

lemma fsAfterWrites_cons (fs : FS) (a : FileWork) (rest : List FileWork) :
    fsAfterWrites fs (a :: rest) =
      fsAfterWrites (fsWrite fs a.path a.updated) rest := rfl

lemma writePhase_cons_ok (writeOk : String → List Char → Bool) (fs : FS)
    (written : List FileWork) (w : FileWork) (rest : List FileWork)
    (h : writeOk w.path w.updated = true) :
    writePhase writeOk fs written (w :: rest) =
      writePhase writeOk (fsWrite fs w.path w.updated) (written ++ [w]) rest := by
  simp [writePhase, h]

lemma writePhase_cons_fail (writeOk : String → List Char → Bool) (fs : FS)
    (written : List FileWork) (w : FileWork) (rest : List FileWork)
    (h : writeOk w.path w.updated = false) :
    writePhase writeOk fs written (w :: rest) =
      (rollbackAll writeOk fs written, written, some w.path) := by
  simp [writePhase, h]

lemma rollbackAll_notmem (writeOk : String → List Char → Bool) :
    ∀ (ws : List FileWork) (fs : FS) (p : String),
      p ∉ ws.map FileWork.path → rollbackAll writeOk fs ws p = fs p := by
  intro ws
  induction ws with
  | nil => intro fs p _; rfl
  | cons w rest ih =>
    intro fs p hp
    simp only [List.map_cons, List.mem_cons] at hp
    push_neg at hp
    simp only [rollbackAll]
    rw [ih _ p hp.2]
    split
    · exact fsWrite_other fs w.path p w.original hp.1
    · rfl

lemma rollbackAll_eval (writeOk : String → List Char → Bool) :
    ∀ (ws : List FileWork) (fs : FS) (w : FileWork),
      (ws.map FileWork.path).Nodup → w ∈ ws →
      rollbackAll writeOk fs ws w.path =
        if writeOk w.path w.original then some w.original else fs w.path := by
  intro ws
  induction ws with
  | nil => intro fs w _ hw; cases hw
  | cons a rest ih =>
    intro fs w hnd hw
    simp only [List.map_cons, List.nodup_cons] at hnd
    cases hw with
    | head =>
      simp only [rollbackAll]
      rw [rollbackAll_notmem writeOk rest _ a.path hnd.1]
      split
      · exact fsWrite_same fs a.path a.original
      · rfl
    | tail _ hw2 =>
      have hne : w.path ≠ a.path := by
        intro heq
        exact hnd.1 (heq ▸ List.mem_map_of_mem FileWork.path hw2)
      simp only [rollbackAll]
      rw [ih _ w hnd.2 hw2]
      have hfs : (if writeOk a.path a.original = true
          then fsWrite fs a.path a.original else fs) w.path = fs w.path := by
        split
        · exact fsWrite_other fs a.path w.path a.original hne
        · rfl
      rw [hfs]

lemma fsAfterWrites_notmem :
    ∀ (ws : List FileWork) (fs : FS) (p : String),
      p ∉ ws.map FileWork.path → fsAfterWrites fs ws p = fs p := by
  intro ws
  induction ws with
  | nil => intro fs p _; rfl
  | cons w rest ih =>
    intro fs p hp
    simp only [List.map_cons, List.mem_cons] at hp
    push_neg at hp
    rw [fsAfterWrites_cons]
    rw [ih _ p hp.2]
    exact fsWrite_other fs w.path p w.updated hp.1

lemma fsAfterWrites_eval :
    ∀ (ws : List FileWork) (fs : FS) (w : FileWork),
      (ws.map FileWork.path).Nodup → w ∈ ws →
      fsAfterWrites fs ws w.path = some w.updated := by
  intro ws
  induction ws with
  | nil => intro fs w _ hw; cases hw
  | cons a rest ih =>
    intro fs w hnd hw
    simp only [List.map_cons, List.nodup_cons] at hnd
    cases hw with
    | head =>
      rw [fsAfterWrites_cons]
      rw [fsAfterWrites_notmem rest _ a.path hnd.1]
      exact fsWrite_same fs a.path a.updated
    | tail _ hw2 =>
      rw [fsAfterWrites_cons]
      exact ih _ w hnd.2 hw2

/-- When the writes of the first `k` files succeed and the write of
file `k` fails, the write phase stops at file `k`, rolls back the
first `k` files, and reports file `k`'s path. -/
lemma writePhase_fail (writeOk : String → List Char → Bool) :
    ∀ (work : List FileWork) (k : Nat) (hk : k < work.length) (fs : FS)
      (written : List FileWork),
      (∀ w ∈ work.take k, writeOk w.path w.updated = true) →
      writeOk (work.get ⟨k, hk⟩).path (work.get ⟨k, hk⟩).updated = false →
      writePhase writeOk fs written work =
        (rollbackAll writeOk (fsAfterWrites fs (work.take k)) (written ++ work.take k),
          written ++ work.take k, some (work.get ⟨k, hk⟩).path) := by
  intro work
  induction work with
  | nil => intro k hk; exact absurd hk (by simp)
  | cons w rest ih =>
    intro k hk fs written hpre hfail
    cases k with
    | zero =>
      have hf : writeOk w.path w.updated = false := hfail
      rw [writePhase_cons_fail writeOk fs written w rest hf]
      simp [fsAfterWrites]
    | succ m =>
      have hw : writeOk w.path w.updated = true :=
        hpre w (by simp [List.take_succ_cons])
      rw [writePhase_cons_ok writeOk fs written w rest hw]
      have hm : m < rest.length := by simpa using hk
      have hpre2 : ∀ x ∈ rest.take m, writeOk x.path x.updated = true := by
        intro x hx
        exact hpre x (by simp [List.take_succ_cons, hx])
      have hfail2 : writeOk (rest.get ⟨m, hm⟩).path (rest.get ⟨m, hm⟩).updated = false :=
        hfail
      rw [ih m hm (fsWrite fs w.path w.updated) (written ++ [w]) hpre2 hfail2]
      simp [List.take_succ_cons, fsAfterWrites_cons]

/-- The files successfully written are always an initial segment of
the work list, in the work list's order. -/
lemma writePhase_written (writeOk : String → List Char → Bool) :
    ∀ (work : List FileWork) (fs : FS) (written : List FileWork),
      ∃ k, k ≤ work.length ∧
        (writePhase writeOk fs written work).2.1 = written ++ work.take k := by
  intro work
  induction work with
  | nil => intro fs written; exact ⟨0, by simp, by simp [writePhase]⟩
  | cons w rest ih =>
    intro fs written
    by_cases hw : writeOk w.path w.updated = true
    · obtain ⟨k, hk, heq⟩ := ih (fsWrite fs w.path w.updated) (written ++ [w])
      refine ⟨k + 1, by simpa using Nat.succ_le_succ hk, ?_⟩
      rw [writePhase_cons_ok writeOk fs written w rest hw]
      rw [heq]
      simp [List.take_succ_cons]
    · refine ⟨0, by simp, ?_⟩
      rw [writePhase_cons_fail writeOk fs written w rest (by simpa using hw)]
      simp

lemma insertAppend_keys (m : List (String × List TextEdit)) (k : String)
    (v : List TextEdit) :
    (insertAppend m k v).map Prod.fst =
      if k ∈ m.map Prod.fst then m.map Prod.fst else m.map Prod.fst ++ [k] := by
  induction m with
  | nil => simp [insertAppend]
  | cons kv rest ih =>
    obtain ⟨k2, v2⟩ := kv
    by_cases h : k2 = k
    · subst h
      simp [insertAppend]
    · simp only [insertAppend, if_neg h, List.map_cons, ih]
      have : (k ∈ k2 :: rest.map Prod.fst) ↔ k ∈ rest.map Prod.fst := by
        simp [Ne.symm h]
      by_cases h2 : k ∈ rest.map Prod.fst
      · simp [h2, this]
      · simp [h2, this]

lemma insertAppend_keys_nodup (m : List (String × List TextEdit)) (k : String)
    (v : List TextEdit) (h : (m.map Prod.fst).Nodup) :
    ((insertAppend m k v).map Prod.fst).Nodup := by
  by_cases hmem : k ∈ m.map Prod.fst
  · rw [insertAppend_keys, if_pos hmem]
    exact h
  · rw [insertAppend_keys, if_neg hmem]
    rw [List.nodup_append]
    refine ⟨h, List.nodup_singleton k, ?_⟩
    intro a ha hb
    simp only [List.mem_singleton] at hb
    subst hb
    exact hmem ha

lemma foldl_insertAppend_nodup :
    ∀ (l : List (String × List TextEdit)) (m : List (String × List TextEdit)),
      (m.map Prod.fst).Nodup →
      ((l.foldl (fun acc kv => insertAppend acc kv.1 kv.2) m).map Prod.fst).Nodup := by
  intro l
  induction l with
  | nil => intro m h; exact h
  | cons kv rest ih =>
    intro m h
    exact ih _ (insertAppend_keys_nodup m kv.1 kv.2 h)

lemma mergeEdits_keys_nodup (we : WorkspaceEdit) :
    ((mergeEdits we).map Prod.fst).Nodup :=
  foldl_insertAppend_nodup _ [] (by simp)

lemma assocVal_cons (k2 : String) (v2 : List TextEdit)
    (rest : List (String × List TextEdit)) (k : String) :
    assocVal ((k2, v2) :: rest) k =
      (if k2 == k then v2 else []) ++ assocVal rest k := by
  unfold assocVal
  cases h : k2 == k <;> simp [List.filter_cons, h]

lemma assocVal_notmem :
    ∀ (m : List (String × List TextEdit)) (k : String),
      k ∉ m.map Prod.fst → assocVal m k = [] := by
  intro m
  induction m with
  | nil => intro k _; rfl
  | cons kv rest ih =>
    intro k hk
    obtain ⟨k2, v2⟩ := kv
    simp only [List.map_cons, List.mem_cons] at hk
    push_neg at hk
    rw [assocVal_cons]
    rw [ih k hk.2]
    have : (k2 == k) = false := by
      simp only [beq_eq_false_iff_ne, ne_eq]
      exact fun h => hk.1 h.symm
    simp [this]

lemma insertAppend_val (m : List (String × List TextEdit)) (k : String)
    (v : List TextEdit) (h : (m.map Prod.fst).Nodup) (k2 : String) :
    assocVal (insertAppend m k v) k2 =
      assocVal m k2 ++ if k == k2 then v else [] := by
  induction m with
  | nil =>
    simp only [insertAppend, assocVal_cons]
    unfold assocVal
    simp
  | cons kv rest ih =>
    obtain ⟨ka, va⟩ := kv
    simp only [List.map_cons, List.nodup_cons] at h
    by_cases hka : ka = k
    · have hins : insertAppend ((ka, va) :: rest) k v = (ka, va ++ v) :: rest := by
        simp [insertAppend, hka]
      rw [hins, assocVal_cons, assocVal_cons]
      by_cases hk2 : (ka == k2) = true
      · have hkk2 : (k == k2) = true := by rw [← hka]; exact hk2
        have hk2eq : k2 = ka := (beq_iff_eq.mp hk2).symm
        have hnotin : k2 ∉ List.map Prod.fst rest := by rw [hk2eq]; exact h.1
        rw [assocVal_notmem rest k2 hnotin]
        simp [hk2, hkk2]
      · have hk2f : (ka == k2) = false := by simpa using hk2
        have hkk2 : (k == k2) = false := by rw [← hka]; exact hk2f
        simp [hk2f, hkk2]
    · simp only [insertAppend, if_neg hka]
      rw [assocVal_cons, assocVal_cons, ih h.2]
      simp [List.append_assoc]

lemma foldl_insertAppend_val :
    ∀ (l : List (String × List TextEdit)) (m : List (String × List TextEdit)),
      (m.map Prod.fst).Nodup → ∀ k2 : String,
      assocVal (l.foldl (fun acc kv => insertAppend acc kv.1 kv.2) m) k2 =
        assocVal m k2 ++ assocVal l k2 := by
  intro l
  induction l with
  | nil => intro m _ k2; simp [assocVal]
  | cons kv rest ih =>
    intro m h k2
    obtain ⟨k, v⟩ := kv
    simp only [List.foldl_cons]
    rw [ih _ (insertAppend_keys_nodup m k v h) k2]
    rw [insertAppend_val m k v h k2]
    rw [assocVal_cons]
    cases hb : k == k2
    · simp [hb]
    · simp [hb]

deriving instance DecidableEq for Except

lemma plan_paths_nodup {we : WorkspaceEdit} {plan : List (String × List TextEdit)}
    (hplan : plan.Perm (mergeEdits we)) : (plan.map Prod.fst).Nodup :=
  ((hplan.map Prod.fst).nodup_iff).mpr (mergeEdits_keys_nodup we)

/-- Concrete fixture: insert "Z" at the start of line 0. -/
def exEdit : TextEdit := ⟨⟨⟨0, 0⟩, ⟨0, 0⟩⟩, ['Z']⟩

/-- Concrete fixture: a filesystem holding files "a" = "x" and
"b" = "y". -/
def exFs : FS := fun p =>
  if p = "a" then some ['x'] else if p = "b" then some ['y'] else none

/-- Concrete fixture: a WorkspaceEdit editing both files through the
Changes representation. -/
def exWe : WorkspaceEdit := ⟨[("a", [exEdit]), ("b", [exEdit])], []⟩

/-- Concrete fixture: the work list buildWork computes for exWe. -/
def exWork : List FileWork :=
  [⟨"a", ['x'], ['Z', 'x'], [exEdit]⟩, ⟨"b", ['y'], ['Z', 'y'], [exEdit]⟩]

/-- Concrete fixture: every write to "b" fails, all others succeed. -/
def exWriteOk : String → List Char → Bool := fun p _ => !(p == "b")

/-- Concrete fixture: writes to "b" fail and so does the rollback
write of "a" (its original content "x"), while "a"'s updated content
writes fine. -/
def exWriteOkRollFail : String → List Char → Bool :=
  fun p c => !(p == "b" || (p == "a" && c == ['x']))

/-- Concrete fixture: every write succeeds. -/
def exWriteOkAll : String → List Char → Bool := fun _ _ => true

/-- Concrete fixture: a filesystem holding only file "a". -/
def exFsNoB : FS := fun p => if p = "a" then some ['x'] else none

/-- Concrete fixture: a WorkspaceEdit whose only file has an empty
edit list. -/
def exWe9 : WorkspaceEdit := ⟨[("a", [])], []⟩

/-- Concrete fixture: a filesystem with no readable file. -/
def exFsEmpty : FS := fun _ => none

/-- C1: when the write of file k fails after the writes of the first
k files succeeded, and every rollback write succeeds, the
transaction rewrites every previously-written file with its captured
original bytes, returns a write-failure error naming the triggering
file, and every file written before the failing one has on-disk
content byte-identical to its pre-transaction content. -/
theorem c1_rollback_restores (writeOk : String → List Char → Bool) (fs : FS)
    (we : WorkspaceEdit) (plan : List (String × List TextEdit))
    (work : List FileWork) (k : Nat) (hk : k < work.length)
    (hplan : plan.Perm (mergeEdits we))
    (hbw : buildWork fs plan = .ok work)
    (hpre : ∀ w ∈ work.take k, writeOk w.path w.updated = true)
    (hfail : writeOk (work.get ⟨k, hk⟩).path (work.get ⟨k, hk⟩).updated = false)
    (hroll : ∀ w ∈ work.take k, writeOk w.path w.original = true) :
    (applyWorkspaceEdit writeOk fs plan).2.2 =
      .error (.writeFailure (work.get ⟨k, hk⟩).path) ∧
    ∀ w ∈ work.take k, (applyWorkspaceEdit writeOk fs plan).1 w.path = fs w.path := by
  have hnd : (work.map FileWork.path).Nodup := by
    rw [buildWork_paths fs plan work hbw]
    exact plan_paths_nodup hplan
  have hndtake : ((work.take k).map FileWork.path).Nodup := by
    rw [List.map_take]
    exact hnd.sublist (List.take_sublist k _)
  have hwp := writePhase_fail writeOk work k hk fs [] hpre hfail
  constructor
  · simp [applyWorkspaceEdit, hbw, hwp]
  · intro w hw
    simp only [applyWorkspaceEdit, hbw, hwp, List.nil_append]
    rw [rollbackAll_eval writeOk (work.take k) _ w hndtake hw]
    rw [if_pos (hroll w hw)]
    exact ((buildWork_reads fs plan work hbw w (List.mem_of_mem_take hw)).1).symm

/-- C1 witness: files "a" then "b", "b"'s write fails, "a" is rolled
back to its original content. -/
theorem c1_rollback_restores_witness :
    (applyWorkspaceEdit exWriteOk exFs (mergeEdits exWe)).2.2 =
      .error (.writeFailure "b") ∧
    ∀ w ∈ exWork.take 1,
      (applyWorkspaceEdit exWriteOk exFs (mergeEdits exWe)).1 w.path = exFs w.path :=
  c1_rollback_restores exWriteOk exFs exWe (mergeEdits exWe) exWork 1
    (by decide) (List.Perm.refl _) (by decide) (by decide) (by decide) (by decide)

/-- C2 (counterexample): with files "a" and "b" where "b"'s write
fails, the run in which the rollback write of "a" also fails returns
exactly the same plain write-failure error value as the run whose
rollback succeeds, while leaving "a" in its updated state: the
rollback failure is silently swallowed, and no distinct error
reports it. -/
theorem c2_partial_failure_counterexample :
    (applyWorkspaceEdit exWriteOkRollFail exFs (mergeEdits exWe)).2.2 =
      .error (.writeFailure "b") ∧
    (applyWorkspaceEdit exWriteOkRollFail exFs (mergeEdits exWe)).2.2 =
      (applyWorkspaceEdit exWriteOk exFs (mergeEdits exWe)).2.2 ∧
    (applyWorkspaceEdit exWriteOkRollFail exFs (mergeEdits exWe)).1 "a" =
      some ['Z', 'x'] ∧
    (applyWorkspaceEdit exWriteOk exFs (mergeEdits exWe)).1 "a" = some ['x'] ∧
    (applyWorkspaceEdit exWriteOkRollFail exFs (mergeEdits exWe)).1 "a" ≠
      (applyWorkspaceEdit exWriteOk exFs (mergeEdits exWe)).1 "a" := by
  refine ⟨by decide, by decide, by decide, by decide, by decide⟩

/-- C2 (amended): a failed rollback write is discarded: whenever the
write of file k fails, the transaction returns the plain
write-failure error naming file k regardless of rollback outcomes,
and every previously-written file whose rollback write fails is left
with its new (updated) content, unreported. -/
theorem c2_rollback_failures_swallowed (writeOk : String → List Char → Bool)
    (fs : FS) (we : WorkspaceEdit) (plan : List (String × List TextEdit))
    (work : List FileWork) (k : Nat) (hk : k < work.length)
    (hplan : plan.Perm (mergeEdits we))
    (hbw : buildWork fs plan = .ok work)
    (hpre : ∀ w ∈ work.take k, writeOk w.path w.updated = true)
    (hfail : writeOk (work.get ⟨k, hk⟩).path (work.get ⟨k, hk⟩).updated = false) :
    (applyWorkspaceEdit writeOk fs plan).2.2 =
      .error (.writeFailure (work.get ⟨k, hk⟩).path) ∧
    ∀ w ∈ work.take k, writeOk w.path w.original = false →
      (applyWorkspaceEdit writeOk fs plan).1 w.path = some w.updated := by
  have hnd : (work.map FileWork.path).Nodup := by
    rw [buildWork_paths fs plan work hbw]
    exact plan_paths_nodup hplan
  have hndtake : ((work.take k).map FileWork.path).Nodup := by
    rw [List.map_take]
    exact hnd.sublist (List.take_sublist k _)
  have hwp := writePhase_fail writeOk work k hk fs [] hpre hfail
  constructor
  · simp [applyWorkspaceEdit, hbw, hwp]
  · intro w hw hrfail
    simp only [applyWorkspaceEdit, hbw, hwp, List.nil_append]
    rw [rollbackAll_eval writeOk (work.take k) _ w hndtake hw]
    rw [if_neg (by simp [hrfail])]
    exact fsAfterWrites_eval (work.take k) fs w hndtake hw

/-- C2 amended witness: "b"'s write and "a"'s rollback both fail;
the error is the plain write failure for "b" and "a" keeps its
updated content. -/
theorem c2_rollback_failures_swallowed_witness :
    (applyWorkspaceEdit exWriteOkRollFail exFs (mergeEdits exWe)).2.2 =
      .error (.writeFailure "b") ∧
    ∀ w ∈ exWork.take 1, exWriteOkRollFail w.path w.original = false →
      (applyWorkspaceEdit exWriteOkRollFail exFs (mergeEdits exWe)).1 w.path =
        some w.updated :=
  c2_rollback_failures_swallowed exWriteOkRollFail exFs exWe (mergeEdits exWe)
    exWork 1 (by decide) (List.Perm.refl _) (by decide) (by decide) (by decide)

/-- C3: if the transaction fails with a read failure or an
edit-computation failure, the content of every file on disk is
unchanged from its pre-transaction state: those failures happen
before any write; only a write-phase failure can leave files
modified. -/
theorem c3_no_writes_before_write_phase (writeOk : String → List Char → Bool)
    (fs : FS) (plan : List (String × List TextEdit)) (e : TxError)
    (herr : (applyWorkspaceEdit writeOk fs plan).2.2 = .error e)
    (hkind : (∃ p, e = .readFailure p) ∨ ∃ p ae, e = .applyFailure p ae) :
    (applyWorkspaceEdit writeOk fs plan).1 = fs := by
  cases hbw : buildWork fs plan with
  | error e2 => simp [applyWorkspaceEdit, hbw]
  | ok work =>
    rcases hwp : writePhase writeOk fs [] work with ⟨fs2, written, failOpt⟩
    cases failOpt with
    | none =>
      simp only [applyWorkspaceEdit, hbw, hwp] at herr
      exact Except.noConfusion herr
    | some p =>
      simp only [applyWorkspaceEdit, hbw, hwp] at herr
      injection herr with h2
      rcases hkind with ⟨q, hq⟩ | ⟨q, ae, hq⟩
      · rw [hq] at h2; exact TxError.noConfusion h2
      · rw [hq] at h2; exact TxError.noConfusion h2

/-- C3 witness: the transaction on a filesystem lacking file "b"
fails with a read failure and leaves the filesystem untouched. -/
theorem c3_no_writes_before_write_phase_witness :
    (applyWorkspaceEdit exWriteOkAll exFsNoB (mergeEdits exWe)).1 = exFsNoB :=
  c3_no_writes_before_write_phase exWriteOkAll exFsNoB (mergeEdits exWe)
    (.readFailure "b") (by decide) (Or.inl ⟨"b", rfl⟩)

/-- Concrete fixture: the merged plan for exWe iterated in the other
order, "b" before "a" — an equally possible Go map iteration order. -/
def exPlanBA : List (String × List TextEdit) := [("b", [exEdit]), ("a", [exEdit])]

/-- C8 (counterexample): two runs of the transaction on the same
WorkspaceEdit and the same initial file contents, differing only in
the (Go-randomized) map iteration order, write the files in
different orders: the write order is not deterministic across
runs. -/
theorem c8_deterministic_order_counterexample :
    mergeEdits exWe = [("a", [exEdit]), ("b", [exEdit])] ∧
    List.Perm exPlanBA (mergeEdits exWe) ∧
    (applyWorkspaceEdit exWriteOkAll exFs (mergeEdits exWe)).2.1 = ["a", "b"] ∧
    (applyWorkspaceEdit exWriteOkAll exFs exPlanBA).2.1 = ["b", "a"] ∧
    (["a", "b"] : List String) ≠ ["b", "a"] := by
  refine ⟨by decide, by decide, by decide, by decide, by decide⟩

/-- C8 (amended): within one run, files are written in the order the
plan is iterated — the same order in which they were read — the
successfully written files always forming an initial segment of the
plan; across runs the order follows Go's randomized map iteration
and is not deterministic. -/
theorem c8_write_order_follows_plan (writeOk : String → List Char → Bool)
    (fs : FS) (plan : List (String × List TextEdit)) :
    ∃ k, (applyWorkspaceEdit writeOk fs plan).2.1 = (plan.map Prod.fst).take k := by
  cases hbw : buildWork fs plan with
  | error e => exact ⟨0, by simp [applyWorkspaceEdit, hbw]⟩
  | ok work =>
    obtain ⟨k, _hk, heq⟩ := writePhase_written writeOk work fs []
    rcases hwp : writePhase writeOk fs [] work with ⟨fs2, written, failOpt⟩
    have hwr : written = work.take k := by
      rw [hwp] at heq
      simpa using heq
    refine ⟨k, ?_⟩
    have hmap : written.map FileWork.path = (plan.map Prod.fst).take k := by
      rw [hwr, ← buildWork_paths fs plan work hbw, List.map_take]
    cases failOpt with
    | none => simp only [applyWorkspaceEdit, hbw, hwp]; exact hmap
    | some p => simp only [applyWorkspaceEdit, hbw, hwp]; exact hmap

/-- C9 (counterexample): a WorkspaceEdit whose only file "a" has an
empty edit list: the file is not discarded — it appears in the
result with an edit count of 0, it is written, and it is read (a
filesystem lacking it makes the transaction fail with a read
failure). -/
theorem c9_empty_edit_list_counterexample :
    mergeEdits exWe9 = [("a", [])] ∧
    (applyWorkspaceEdit exWriteOkAll exFs (mergeEdits exWe9)).2.2 = .ok [("a", 0)] ∧
    (applyWorkspaceEdit exWriteOkAll exFs (mergeEdits exWe9)).2.1 = ["a"] ∧
    (applyWorkspaceEdit exWriteOkAll exFsEmpty (mergeEdits exWe9)).2.2 =
      .error (.readFailure "a") := by
  refine ⟨by decide, by decide, by decide, by decide⟩

/-- C9 (amended): normalization merges the two representations into
one edit list per file, entries for the same file concatenated in
encounter order; a file whose resulting edit list is empty is NOT
discarded: it stays in the plan, is read and rewritten with its
unchanged content, and appears in the result with edit count 0. -/
theorem c9_normalization (we : WorkspaceEdit) (k : String) (fs : FS)
    (plan : List (String × List TextEdit)) (work : List FileWork)
    (hbw : buildWork fs plan = .ok work) :
    assocVal (mergeEdits we) k = assocVal (we.changes ++ we.documentChanges) k ∧
    work.map FileWork.path = plan.map Prod.fst ∧
    ∀ w ∈ work, w.edits = [] → w.updated = w.original := by
  refine ⟨?_, buildWork_paths fs plan work hbw, ?_⟩
  · unfold mergeEdits
    rw [foldl_insertAppend_val _ [] (by simp) k]
    simp [assocVal]
  · intro w hw hempty
    have h2 := (buildWork_reads fs plan work hbw w hw).2
    rw [hempty] at h2
    unfold applyFileEdits sortEdits at h2
    simp only [List.insertionSort, applyEditsLoop] at h2
    injection h2 with h3
    exact h3.symm

/-- C9 amended witness: the empty-edit-list file "a" flows through
buildWork with unchanged content and edit count 0. -/
theorem c9_normalization_witness :
    assocVal (mergeEdits exWe9) "a" =
      assocVal (exWe9.changes ++ exWe9.documentChanges) "a" ∧
    ([⟨"a", ['x'], ['x'], []⟩] : List FileWork).map FileWork.path =
      (mergeEdits exWe9).map Prod.fst ∧
    ∀ w ∈ ([⟨"a", ['x'], ['x'], []⟩] : List FileWork),
      w.edits = [] → w.updated = w.original :=
  c9_normalization exWe9 "a" exFs (mergeEdits exWe9)
    [⟨"a", ['x'], ['x'], []⟩] (by decide)

end RenameEngine
